import Mathlib

/-!
Shallow embedding of `src/keyboard_tester/src/keyboard.rs` (the `KeyboardManager`
shortcut-matching engine) and proofs about its matching algorithm.

Modelling choices:
* `Key` (rdev key codes) is modelled as `Nat` (opaque, equality-comparable).
* `Instant` / `Duration` are modelled as `Nat` time stamps / durations; the
  handler processes an event at time `now`, and `last_press.elapsed()` becomes
  `now - last_press` (truncated subtraction, matching `Instant`'s saturation).
* `HashSet<Key>` is modelled as `Finset Key` (insert / erase / subset).
* The opaque callback `Box<dyn Fn()>` of the shortcut at registry position `i`
  is identified by `i`; an event-processing step returns, besides the next
  state, the list of registry positions whose callbacks were invoked, in
  invocation order.
-/

namespace KeyboardTester

abbrev Key := Nat

abbrev Time := Nat

/-- `enum ShortcutType` from keyboard.rs: a `Combination` holds a
`HashSet<Key>`, a `Succession` holds a key and a timeout `Duration`. -/
inductive ShortcutType where
  | Combination : Finset Key → ShortcutType
  | Succession : Key → Nat → ShortcutType
deriving DecidableEq

/-- `struct Shortcut` from keyboard.rs. The `callback` field is opaque and is
identified by the shortcut's registry position (see module comment). -/
structure Shortcut where
  shortcut_type : ShortcutType
deriving DecidableEq

/-- `struct KeyboardManager`: the registry plus the mutable key state.
The mutexes guard fields that we model directly. -/
structure KeyboardManager where
  shortcuts : List Shortcut
  pressed_keys : Finset Key
  last_key_press_time : Option Time
  last_key_pressed : Option Key
deriving DecidableEq

/-- `KeyboardManager::new`. -/
def KeyboardManager.new : KeyboardManager :=
  { shortcuts := []
    pressed_keys := ∅
    last_key_press_time := none
    last_key_pressed := none }

/-- `KeyboardManager::register_combination`: collects the `Vec<Key>` into a
`HashSet` and pushes the shortcut; no validation of any kind. -/
def KeyboardManager.register_combination (m : KeyboardManager) (keys : List Key) :
    KeyboardManager :=
  { m with shortcuts := m.shortcuts ++ [⟨ShortcutType.Combination keys.toFinset⟩] }

/-- `KeyboardManager::register_succession`: pushes the shortcut; no validation
of the timeout. -/
def KeyboardManager.register_succession (m : KeyboardManager) (key : Key)
    (timeout : Nat) : KeyboardManager :=
  { m with shortcuts := m.shortcuts ++ [⟨ShortcutType.Succession key timeout⟩] }

/-- `rdev::EventType`, restricted to the three cases the handler distinguishes
(`KeyPress`, `KeyRelease`, and the catch-all `_ => {}` arm). -/
inductive EventType where
  | KeyPress : Key → EventType
  | KeyRelease : Key → EventType
  | Other : EventType

/-- The first `for shortcut in shortcuts.iter()` loop of the handler: walk the
registry in order and invoke every `Combination` whose key set is a subset of
the (already updated) held set.  `i` is the registry position of the head of
`l`; the returned list records the invoked callbacks in invocation order. -/
def comboScan (pressed : Finset Key) (i : Nat) : List Shortcut → List Nat
  | [] => []
  | s :: rest =>
    match s.shortcut_type with
    | ShortcutType.Combination keys =>
        if keys ⊆ pressed then i :: comboScan pressed (i + 1) rest
        else comboScan pressed (i + 1) rest
    | ShortcutType.Succession _ _ => comboScan pressed (i + 1) rest

/-- The second `for shortcut in shortcuts.iter()` loop of the handler (only
reached when `last_key_press_time` was `Some last_press`): walk the registry in
order and invoke every `Succession` whose key equals the pressed key, equals
the last pressed key, and whose timeout has not elapsed. -/
def succScan (key : Key) (lastKey : Option Key) (last_press now : Time) (i : Nat) :
    List Shortcut → List Nat
  | [] => []
  | s :: rest =>
    match s.shortcut_type with
    | ShortcutType.Succession succession_key timeout =>
        if succession_key = key ∧ some succession_key = lastKey ∧
            now - last_press ≤ timeout then
          i :: succScan key lastKey last_press now (i + 1) rest
        else succScan key lastKey last_press now (i + 1) rest
    | ShortcutType.Combination _ => succScan key lastKey last_press now (i + 1) rest

/-- One iteration of the `listen` closure in `KeyboardManager::start_listening`,
processing a single event at time `now`: returns the next state and the list of
registry positions whose callbacks were invoked, in invocation order. -/
def processEvent (m : KeyboardManager) (e : EventType) (now : Time) :
    KeyboardManager × List Nat :=
  match e with
  | EventType.KeyPress key =>
      let pressed := insert key m.pressed_keys
      let comboFired := comboScan pressed 0 m.shortcuts
      let succFired :=
        match m.last_key_press_time with
        | some last_press => succScan key m.last_key_pressed last_press now 0 m.shortcuts
        | none => []
      ({ m with
          pressed_keys := pressed
          last_key_press_time := some now
          last_key_pressed := some key },
        comboFired ++ succFired)
  | EventType.KeyRelease key =>
      ({ m with pressed_keys := m.pressed_keys.erase key }, [])
  | EventType.Other => (m, [])

/-- Sequential processing of a trace of timestamped events, concatenating the
invocation logs. -/
def runEvents (m : KeyboardManager) : List (EventType × Time) → KeyboardManager × List Nat
  | [] => (m, [])
  | (e, t) :: rest =>
      let r := processEvent m e t
      let r2 := runEvents r.1 rest
      (r2.1, r.2 ++ r2.2)

example : (KeyboardManager.new.register_combination [0, 1]).shortcuts =
    [⟨ShortcutType.Combination {0, 1}⟩] := by decide

example :
    (processEvent
      ((KeyboardManager.new.register_succession 0 10).register_combination [0])
      (EventType.KeyPress 0) 0).2 = [1] := by decide

/-- Positions fired by the combination loop characterised: position `i + k` is
in the output exactly when the shortcut at offset `k` is a `Combination` whose
key set is contained in the held set. -/
theorem mem_comboScan {pressed : Finset Key} {j : Nat} :
    ∀ {i : Nat} {l : List Shortcut},
      j ∈ comboScan pressed i l ↔
        ∃ k keys, l.get? k = some ⟨ShortcutType.Combination keys⟩ ∧
          j = i + k ∧ keys ⊆ pressed := by
  intro i l
  induction l generalizing i with
  | nil => simp [comboScan]
  | cons s rest ih =>
    obtain ⟨ty⟩ := s
    cases ty with
    | Combination keys =>
      by_cases h : keys ⊆ pressed
      · simp only [comboScan, if_pos h, List.mem_cons, ih]
        constructor
        · rintro (rfl | ⟨k, keys', hget, rfl, hsub⟩)
          · exact ⟨0, keys, rfl, by omega, h⟩
          · exact ⟨k + 1, keys', hget, by omega, hsub⟩
        · rintro ⟨k, keys', hget, rfl, hsub⟩
          cases k with
          | zero =>
            simp only [List.get?_cons_zero, Option.some.injEq, Shortcut.mk.injEq,
              ShortcutType.Combination.injEq] at hget
            left; omega
          | succ k =>
            right
            exact ⟨k, keys', hget, by omega, hsub⟩
      · simp only [comboScan, if_neg h, ih]
        constructor
        · rintro ⟨k, keys', hget, rfl, hsub⟩
          exact ⟨k + 1, keys', hget, by omega, hsub⟩
        · rintro ⟨k, keys', hget, rfl, hsub⟩
          cases k with
          | zero =>
            simp only [List.get?_cons_zero, Option.some.injEq, Shortcut.mk.injEq,
              ShortcutType.Combination.injEq] at hget
            subst hget; exact absurd hsub h
          | succ k =>
            exact ⟨k, keys', hget, by omega, hsub⟩
    | Succession sk timeout =>
      simp only [comboScan, ih]
      constructor
      · rintro ⟨k, keys', hget, rfl, hsub⟩
        exact ⟨k + 1, keys', hget, by omega, hsub⟩
      · rintro ⟨k, keys', hget, rfl, hsub⟩
        cases k with
        | zero => simp at hget
        | succ k =>
          exact ⟨k, keys', hget, by omega, hsub⟩

/-- Positions fired by the succession loop characterised: position `i + k` is
in the output exactly when the shortcut at offset `k` is a `Succession` whose
key equals the pressed key and the last pressed key, within the timeout. -/
theorem mem_succScan {key : Key} {lastKey : Option Key} {last_press now : Time}
    {j : Nat} :
    ∀ {i : Nat} {l : List Shortcut},
      j ∈ succScan key lastKey last_press now i l ↔
        ∃ k sk timeout, l.get? k = some ⟨ShortcutType.Succession sk timeout⟩ ∧
          j = i + k ∧ sk = key ∧ some sk = lastKey ∧ now - last_press ≤ timeout := by
  intro i l
  induction l generalizing i with
  | nil => simp [succScan]
  | cons s rest ih =>
    obtain ⟨ty⟩ := s
    cases ty with
    | Combination keys =>
      simp only [succScan, ih]
      constructor
      · rintro ⟨k, sk, timeout, hget, rfl, hc⟩
        exact ⟨k + 1, sk, timeout, hget, by omega, hc⟩
      · rintro ⟨k, sk, timeout, hget, rfl, hc⟩
        cases k with
        | zero => simp at hget
        | succ k =>
          exact ⟨k, sk, timeout, hget, by omega, hc⟩
    | Succession sk timeout =>
      by_cases h : sk = key ∧ some sk = lastKey ∧ now - last_press ≤ timeout
      · simp only [succScan, if_pos h, List.mem_cons, ih]
        constructor
        · rintro (rfl | ⟨k, sk', t', hget, rfl, hc⟩)
          · exact ⟨0, sk, timeout, rfl, by omega, h⟩
          · exact ⟨k + 1, sk', t', hget, by omega, hc⟩
        · rintro ⟨k, sk', t', hget, rfl, hc⟩
          cases k with
          | zero =>
            simp only [List.get?_cons_zero, Option.some.injEq, Shortcut.mk.injEq,
              ShortcutType.Succession.injEq] at hget
            left; omega
          | succ k =>
            right
            exact ⟨k, sk', t', hget, by omega, hc⟩
      · simp only [succScan, if_neg h, ih]
        constructor
        · rintro ⟨k, sk', t', hget, rfl, hc⟩
          exact ⟨k + 1, sk', t', hget, by omega, hc⟩
        · rintro ⟨k, sk', t', hget, rfl, hc⟩
          cases k with
          | zero =>
            simp only [List.get?_cons_zero, Option.some.injEq, Shortcut.mk.injEq,
              ShortcutType.Succession.injEq] at hget
            obtain ⟨rfl, rfl⟩ := hget
            exact absurd hc h
          | succ k =>
            exact ⟨k, sk', t', hget, by omega, hc⟩

/-- The combination loop fires each registry entry at most once per event. -/
theorem comboScan_nodup {pressed : Finset Key} :
    ∀ {i : Nat} {l : List Shortcut}, (comboScan pressed i l).Nodup := by
  intro i l
  induction l generalizing i with
  | nil => simp [comboScan]
  | cons s rest ih =>
    obtain ⟨ty⟩ := s
    cases ty with
    | Combination keys =>
      by_cases h : keys ⊆ pressed
      · simp only [comboScan, if_pos h]
        refine List.nodup_cons.2 ⟨?_, ih⟩
        intro hmem
        obtain ⟨k, _, _, heq, _⟩ := mem_comboScan.1 hmem
        omega
      · simpa only [comboScan, if_neg h] using ih
    | Succession sk timeout => simpa only [comboScan] using ih

/-- The succession loop fires each registry entry at most once per event. -/
theorem succScan_nodup {key : Key} {lastKey : Option Key} {last_press now : Time} :
    ∀ {i : Nat} {l : List Shortcut},
      (succScan key lastKey last_press now i l).Nodup := by
  intro i l
  induction l generalizing i with
  | nil => simp [succScan]
  | cons s rest ih =>
    obtain ⟨ty⟩ := s
    cases ty with
    | Combination keys => simpa only [succScan] using ih
    | Succession sk timeout =>
      by_cases h : sk = key ∧ some sk = lastKey ∧ now - last_press ≤ timeout
      · simp only [succScan, if_pos h]
        refine List.nodup_cons.2 ⟨?_, ih⟩
        intro hmem
        obtain ⟨k, _, _, _, heq, _⟩ := mem_succScan.1 hmem
        omega
      · simpa only [succScan, if_neg h] using ih

/-- A registry position holding a `Combination` never appears in the
succession loop's output. -/
theorem comboPos_not_mem_succScan {key : Key} {lastKey : Option Key}
    {last_press now : Time} {l : List Shortcut} {i : Nat} {keys : Finset Key}
    (h : l.get? i = some ⟨ShortcutType.Combination keys⟩) :
    i ∉ succScan key lastKey last_press now 0 l := by
  intro hmem
  obtain ⟨k, sk, timeout, hget, hik, _⟩ := mem_succScan.1 hmem
  have : i = k := by omega
  subst this
  rw [h] at hget
  simp at hget

/-- A registry position holding a `Succession` never appears in the
combination loop's output. -/
theorem succPos_not_mem_comboScan {pressed : Finset Key} {l : List Shortcut}
    {i : Nat} {sk : Key} {timeout : Nat}
    (h : l.get? i = some ⟨ShortcutType.Succession sk timeout⟩) :
    i ∉ comboScan pressed 0 l := by
  intro hmem
  obtain ⟨k, keys, hget, hik, _⟩ := mem_comboScan.1 hmem
  have : i = k := by omega
  subst this
  rw [h] at hget
  simp at hget

/-- C2: for every `Combination` shortcut with key set `keys` and every press
event, after the pressed key is inserted into the held set, the shortcut's
callback is invoked exactly once on that event if `keys` is a subset of the
current held set, and not at all otherwise — re-evaluated on every press,
whatever the pressed key. -/
theorem combination_fires_iff_subset (m : KeyboardManager) (key : Key)
    (now : Time) (i : Nat) (keys : Finset Key)
    (h : m.shortcuts.get? i = some ⟨ShortcutType.Combination keys⟩) :
    ((processEvent m (EventType.KeyPress key) now).2).count i =
      if keys ⊆ insert key m.pressed_keys then 1 else 0 := by
  have hsucc0 :
      ((match m.last_key_press_time with
        | some last_press =>
            succScan key m.last_key_pressed last_press now 0 m.shortcuts
        | none => []) : List Nat).count i = 0 := by
    cases hlp : m.last_key_press_time with
    | none => simp
    | some last_press =>
      exact List.count_eq_zero_of_not_mem (comboPos_not_mem_succScan h)
  have hcombo :
      (comboScan (insert key m.pressed_keys) 0 m.shortcuts).count i =
        if keys ⊆ insert key m.pressed_keys then 1 else 0 := by
    by_cases hsub : keys ⊆ insert key m.pressed_keys
    · rw [if_pos hsub]
      exact List.count_eq_one_of_mem comboScan_nodup
        (mem_comboScan.2 ⟨i, keys, h, by omega, hsub⟩)
    · rw [if_neg hsub]
      refine List.count_eq_zero_of_not_mem ?_
      intro hmem
      obtain ⟨k, keys', hget, hik, hsub'⟩ := mem_comboScan.1 hmem
      have : i = k := by omega
      subst this
      rw [h] at hget
      simp only [Option.some.injEq, Shortcut.mk.injEq,
        ShortcutType.Combination.injEq] at hget
      subst hget
      exact hsub hsub'
  simp only [processEvent, List.count_append, hcombo, hsucc0, Nat.add_zero]

/-- C2 witness: with `Combination {0, 1}` registered and key 0 already held,
pressing key 1 fires the combination exactly once. -/
theorem combination_fires_iff_subset_witness :
    ((processEvent
      (processEvent (KeyboardManager.new.register_combination [0, 1])
        (EventType.KeyPress 0) 0).1
      (EventType.KeyPress 1) 1).2).count 0 = 1 :=
  (combination_fires_iff_subset
    (processEvent (KeyboardManager.new.register_combination [0, 1])
      (EventType.KeyPress 0) 0).1
    1 1 0 {0, 1} (by decide)).trans (by decide)

/-- C3: a `Succession` shortcut `(K, T)` fires on a press of `k` at time `t`
iff `k = K`, the last-pressed pair recorded before the event is `(K, t0)`, and
`t - t0 ≤ T`; the current `(k, t)` is recorded as the new last-pressed pair
only after that check (the check reads the prior value). -/
theorem succession_fires_iff (m : KeyboardManager) (k : Key) (t : Time)
    (i : Nat) (K : Key) (T : Nat)
    (h : m.shortcuts.get? i = some ⟨ShortcutType.Succession K T⟩) :
    (i ∈ (processEvent m (EventType.KeyPress k) t).2 ↔
      k = K ∧ ∃ t0, m.last_key_pressed = some K ∧
        m.last_key_press_time = some t0 ∧ t - t0 ≤ T) ∧
    (processEvent m (EventType.KeyPress k) t).1.last_key_pressed = some k ∧
    (processEvent m (EventType.KeyPress k) t).1.last_key_press_time = some t := by
  refine ⟨?_, rfl, rfl⟩
  simp only [processEvent, List.mem_append]
  constructor
  · rintro (hc | hs)
    · exact absurd hc (succPos_not_mem_comboScan h)
    · cases hlp : m.last_key_press_time with
      | none => rw [hlp] at hs; simp at hs
      | some t0 =>
        rw [hlp] at hs
        obtain ⟨j, sk, timeout, hget, hij, hkk, hlk, hto⟩ := mem_succScan.1 hs
        have : i = j := by omega
        subst this
        rw [h] at hget
        simp only [Option.some.injEq, Shortcut.mk.injEq,
          ShortcutType.Succession.injEq] at hget
        obtain ⟨rfl, rfl⟩ := hget
        exact ⟨hkk.symm, t0, hlk.symm, rfl, hto⟩
  · rintro ⟨rfl, t0, hlk, hlt, hto⟩
    right
    rw [hlt]
    exact mem_succScan.2 ⟨i, k, T, h, by omega, rfl, hlk.symm, hto⟩

/-- C3 witness: `Succession (5, 300)` fires on the second press of key 5 when
the presses are 200 time units apart. -/
theorem succession_fires_iff_witness :
    0 ∈ (processEvent
      (processEvent (KeyboardManager.new.register_succession 5 300)
        (EventType.KeyPress 5) 0).1
      (EventType.KeyPress 5) 200).2 :=
  ((succession_fires_iff
    (processEvent (KeyboardManager.new.register_succession 5 300)
      (EventType.KeyPress 5) 0).1
    5 200 0 5 300 (by decide)).1).mpr
    ⟨rfl, 0, by decide, by decide, by decide⟩

/-- The combination loop equals, declaratively, the in-order filter of the
registry down to the `Combination` entries whose key set is held. -/
theorem comboScan_eq_filterMap {pressed : Finset Key} :
    ∀ {i : Nat} {l : List Shortcut},
      comboScan pressed i l = (l.enumFrom i).filterMap fun p =>
        match p.2.shortcut_type with
        | ShortcutType.Combination keys =>
            if keys ⊆ pressed then some p.1 else none
        | ShortcutType.Succession _ _ => none := by
  intro i l
  induction l generalizing i with
  | nil => rfl
  | cons s rest ih =>
    obtain ⟨ty⟩ := s
    cases ty with
    | Combination keys =>
      by_cases h : keys ⊆ pressed
      · simp [comboScan, List.enumFrom, List.filterMap_cons, h, ih]
      · simp [comboScan, List.enumFrom, List.filterMap_cons, h, ih]
    | Succession sk timeout =>
      simp [comboScan, List.enumFrom, List.filterMap_cons, ih]

/-- The succession loop equals, declaratively, the in-order filter of the
registry down to the matching `Succession` entries. -/
theorem succScan_eq_filterMap {key : Key} {lastKey : Option Key}
    {last_press now : Time} :
    ∀ {i : Nat} {l : List Shortcut},
      succScan key lastKey last_press now i l = (l.enumFrom i).filterMap fun p =>
        match p.2.shortcut_type with
        | ShortcutType.Succession sk timeout =>
            if sk = key ∧ some sk = lastKey ∧ now - last_press ≤ timeout then
              some p.1
            else none
        | ShortcutType.Combination _ => none := by
  intro i l
  induction l generalizing i with
  | nil => rfl
  | cons s rest ih =>
    obtain ⟨ty⟩ := s
    cases ty with
    | Combination keys =>
      simp [succScan, List.enumFrom, List.filterMap_cons, ih]
    | Succession sk timeout =>
      by_cases h : sk = key ∧ some sk = lastKey ∧ now - last_press ≤ timeout
      · simp only [succScan, List.enumFrom, List.filterMap_cons, if_pos h, ih]
      · simp only [succScan, List.enumFrom, List.filterMap_cons, if_neg h, ih]

/-- C1 counterexample: register `Succession (0, 10)` first (position 0) and
`Combination {0}` second (position 1); press key 0 at time 0 and again at
time 5.  On the second press both shortcuts match, yet the invocation log is
`[1, 0]`: the later-registered combination's action fires before the
earlier-registered succession's action, refuting cross-variant insertion-order
firing. -/
theorem firing_order_counterexample :
    ((processEvent
        (processEvent
          ((KeyboardManager.new.register_succession 0 10).register_combination [0])
          (EventType.KeyPress 0) 0).1
        (EventType.KeyPress 0) 5).2) = [1, 0] ∧
    ((processEvent
        (processEvent
          ((KeyboardManager.new.register_succession 0 10).register_combination [0])
          (EventType.KeyPress 0) 0).1
        (EventType.KeyPress 0) 5).2).head? ≠ some 0 := by decide

/-- C1 amended: on a press event the callbacks fire in two passes — first
every matching `Combination` in registry insertion order, then (only if a
previous press was recorded) every matching `Succession` in registry insertion
order.  Insertion order determines firing order within each variant, but every
matching Combination fires before every matching Succession. -/
theorem firing_order (m : KeyboardManager) (key : Key) (now : Time) :
    (processEvent m (EventType.KeyPress key) now).2 =
      (m.shortcuts.enum.filterMap fun p =>
        match p.2.shortcut_type with
        | ShortcutType.Combination keys =>
            if keys ⊆ insert key m.pressed_keys then some p.1 else none
        | ShortcutType.Succession _ _ => none)
      ++ (match m.last_key_press_time with
          | some last_press =>
              m.shortcuts.enum.filterMap fun p =>
                match p.2.shortcut_type with
                | ShortcutType.Succession sk timeout =>
                    if sk = key ∧ some sk = m.last_key_pressed ∧
                        now - last_press ≤ timeout then some p.1
                    else none
                | ShortcutType.Combination _ => none
          | none => []) := by
  simp only [processEvent, List.enum]
  cases m.last_key_press_time with
  | none => simp [comboScan_eq_filterMap]
  | some last_press => simp [comboScan_eq_filterMap, succScan_eq_filterMap]

/-- C4 counterexample: `register_succession` called with timeout 0 (not
strictly positive) does not fail — the Succession definition is appended to
the registry. -/
theorem register_succession_zero_timeout_counterexample :
    (KeyboardManager.new.register_succession 0 0).shortcuts =
      [⟨ShortcutType.Succession 0 0⟩] ∧
    (KeyboardManager.new.register_succession 0 0).shortcuts ≠
      KeyboardManager.new.shortcuts := by decide

/-- C4 amended: `register_succession` performs no timeout validation — for
every key and every timeout, zero included, it appends exactly the given
Succession definition to the registry and touches nothing else. -/
theorem register_succession_appends (m : KeyboardManager) (key : Key)
    (timeout : Nat) :
    (m.register_succession key timeout).shortcuts =
      m.shortcuts ++ [⟨ShortcutType.Succession key timeout⟩] ∧
    (m.register_succession key timeout).pressed_keys = m.pressed_keys ∧
    (m.register_succession key timeout).last_key_press_time =
      m.last_key_press_time ∧
    (m.register_succession key timeout).last_key_pressed = m.last_key_pressed :=
  ⟨rfl, rfl, rfl, rfl⟩

/-- C5: a release of key `k` leaves the held set minus `{k}` (so releasing a
key that is not held is a no-op), leaves the last-pressed pair unchanged, and
invokes no action. -/
theorem release_removes_key (m : KeyboardManager) (k : Key) (t : Time) :
    (processEvent m (EventType.KeyRelease k) t).1.pressed_keys =
      m.pressed_keys \ {k} ∧
    (k ∉ m.pressed_keys →
      (processEvent m (EventType.KeyRelease k) t).1.pressed_keys =
        m.pressed_keys) ∧
    (processEvent m (EventType.KeyRelease k) t).1.last_key_pressed =
      m.last_key_pressed ∧
    (processEvent m (EventType.KeyRelease k) t).1.last_key_press_time =
      m.last_key_press_time ∧
    (processEvent m (EventType.KeyRelease k) t).2 = [] := by
  refine ⟨?_, ?_, rfl, rfl, rfl⟩
  · simp [processEvent, Finset.sdiff_singleton_eq_erase]
  · intro hk
    simp [processEvent, Finset.erase_eq_of_not_mem hk]

/-- C5 witness: releasing key 3, which is not held, leaves the empty held set
unchanged. -/
theorem release_removes_key_witness :
    (processEvent KeyboardManager.new (EventType.KeyRelease 3) 7).1.pressed_keys =
      KeyboardManager.new.pressed_keys :=
  (release_removes_key KeyboardManager.new 3 7).2.1 (by decide)

/-- C6: every press records the pressed key and the current time as the
last-pressed pair, whether or not any shortcut matched; consequently, under a
monotonic clock the recorded press timestamp strictly increases across
presses. -/
theorem press_updates_last (m : KeyboardManager) (key : Key) (now : Time) :
    (processEvent m (EventType.KeyPress key) now).1.last_key_press_time =
      some now ∧
    (processEvent m (EventType.KeyPress key) now).1.last_key_pressed =
      some key ∧
    (∀ t0, m.last_key_press_time = some t0 → t0 < now →
      ∀ t1, (processEvent m (EventType.KeyPress key) now).1.last_key_press_time =
        some t1 → t0 < t1) := by
  refine ⟨rfl, rfl, ?_⟩
  intro t0 _ hlt t1 ht1
  have hnow : (some now : Option Time) = some t1 := ht1
  cases Option.some.inj hnow
  exact hlt

/-- C6 witness: after a press at time 1 then a press at time 4, the recorded
timestamp is 4, strictly above 1. -/
theorem press_updates_last_witness :
    (processEvent (processEvent KeyboardManager.new (EventType.KeyPress 2) 1).1
      (EventType.KeyPress 2) 4).1.last_key_press_time = some 4 ∧ (1 : Nat) < 4 :=
  ⟨(press_updates_last
      (processEvent KeyboardManager.new (EventType.KeyPress 2) 1).1 2 4).1,
    (press_updates_last
      (processEvent KeyboardManager.new (EventType.KeyPress 2) 1).1 2 4).2.2
      1 (by decide) (by decide) 4
      (press_updates_last
        (processEvent KeyboardManager.new (EventType.KeyPress 2) 1).1 2 4).1⟩

/-- C8: the matching algorithm has no error path: processing any event — any
key, any time, any state — is a total function, and every callback invocation
it produces refers to an actual registry entry (no lookup can fail). -/
theorem processEvent_no_failure (m : KeyboardManager) (e : EventType)
    (now : Time) :
    ∀ i ∈ (processEvent m e now).2, i < m.shortcuts.length := by
  intro i hi
  cases e with
  | KeyPress key =>
    simp only [processEvent, List.mem_append] at hi
    rcases hi with hc | hs
    · obtain ⟨k, keys, hget, rfl, _⟩ := mem_comboScan.1 hc
      obtain ⟨hlt, _⟩ := List.get?_eq_some.1 hget
      omega
    · cases hlp : m.last_key_press_time with
      | none => rw [hlp] at hs; simp at hs
      | some t0 =>
        rw [hlp] at hs
        obtain ⟨k, sk, timeout, hget, rfl, _⟩ := mem_succScan.1 hs
        obtain ⟨hlt, _⟩ := List.get?_eq_some.1 hget
        omega
  | KeyRelease key => simp [processEvent] at hi
  | Other => simp [processEvent] at hi

/-- C8 witness: with one registered shortcut, the single invocation produced
by a press refers to registry position 0, below the registry length 1. -/
theorem processEvent_no_failure_witness :
    0 < (KeyboardManager.new.register_combination []).shortcuts.length :=
  processEvent_no_failure (KeyboardManager.new.register_combination [])
    (EventType.KeyPress 9) 0 0 (by decide)

/-- C9: `register_combination` performs no validation, and a Combination
registered from the empty key list has key set `∅`, a subset of every held
set — so its action fires on every subsequent press of any key. -/
theorem empty_combination_always_fires (m : KeyboardManager) (key : Key)
    (now : Time) :
    m.shortcuts.length ∈
      (processEvent (m.register_combination []) (EventType.KeyPress key) now).2 := by
  have hget : (m.register_combination []).shortcuts.get? m.shortcuts.length =
      some ⟨ShortcutType.Combination ∅⟩ := by
    simp [KeyboardManager.register_combination, List.get?_concat_length]
  simp only [processEvent, List.mem_append]
  left
  exact mem_comboScan.2
    ⟨m.shortcuts.length, ∅, hget, by omega, Finset.empty_subset _⟩

/-- C10: while no press has been recorded (`last_key_press_time = none`, as at
construction), a press fires no Succession shortcut, whatever its key and
timeout — the succession scan is skipped entirely. -/
theorem no_succession_on_first_press (m : KeyboardManager) (key : Key)
    (now : Time) (h : m.last_key_press_time = none) (i : Nat) (K : Key) (T : Nat)
    (hK : m.shortcuts.get? i = some ⟨ShortcutType.Succession K T⟩) :
    i ∉ (processEvent m (EventType.KeyPress key) now).2 := by
  intro hmem
  simp only [processEvent, h, List.mem_append] at hmem
  rcases hmem with hc | hs
  · exact succPos_not_mem_comboScan hK hc
  · simp at hs

/-- C10 witness: the very first press of key 5 does not fire the registered
`Succession (5, 300)`. -/
theorem no_succession_on_first_press_witness :
    0 ∉ (processEvent (KeyboardManager.new.register_succession 5 300)
      (EventType.KeyPress 5) 0).2 :=
  no_succession_on_first_press (KeyboardManager.new.register_succession 5 300)
    5 0 (by decide) 0 5 300 (by decide)

end KeyboardTester
